import Mathlib

set_option maxHeartbeats 1000000

namespace RITIS

/-! # Shallow embedding of RITIS_Downloader.py

Dates are embedded as year/month/day triples with Gregorian arithmetic
(`datetime.date`, `timedelta(days=1)`), the watermark file format is the
textual `%Y-%m-%d %H:%M:%S` round trip, and the job-tracking dictionary of
`daily_download` / `single_download` is an association list from job name to
the tracked record.  Network and clock effects are supplied by an explicit
environment: the date seen by `datetime.now()` when the outstanding dates are
computed, the date seen when the watermark is saved, the job-history listing
returned by each successive poll, and the artifact bytes returned by each
fetch (`none` models a fetch or decode failure, which in the Python code
raises and propagates). -/

/-- Calendar date (year, month, day): the embedding of Python `datetime.date`. -/
@[ext]
structure Ymd where
  y : Nat
  m : Nat
  d : Nat
deriving DecidableEq, Repr

/-- Gregorian leap-year rule. -/
def isLeap (y : Nat) : Bool := (y % 4 == 0 && y % 100 != 0) || y % 400 == 0

/-- Number of days in month `m` of year `y`. -/
def daysInMonth (y m : Nat) : Nat :=
  if m = 2 then (if isLeap y then 29 else 28)
  else if m = 4 ∨ m = 6 ∨ m = 9 ∨ m = 11 then 30 else 31

/-- A structurally valid Gregorian date (what `datetime.date` admits). -/
def Ymd.Valid (a : Ymd) : Prop :=
  1 ≤ a.y ∧ 1 ≤ a.m ∧ a.m ≤ 12 ∧ 1 ≤ a.d ∧ a.d ≤ daysInMonth a.y a.m

instance (a : Ymd) : Decidable a.Valid := by unfold Ymd.Valid; exact inferInstance

/-- `date + timedelta(days=1)`. -/
def nextDay (a : Ymd) : Ymd :=
  if a.d < daysInMonth a.y a.m then ⟨a.y, a.m, a.d + 1⟩
  else if a.m < 12 then ⟨a.y, a.m + 1, 1⟩
  else ⟨a.y + 1, 1, 1⟩

/-- `date - timedelta(days=1)` (used for `yesterday = today - timedelta(days=1)`). -/
def prevDay (a : Ymd) : Ymd :=
  if 1 < a.d then ⟨a.y, a.m, a.d - 1⟩
  else if 1 < a.m then ⟨a.y, a.m - 1, daysInMonth a.y (a.m - 1)⟩
  else ⟨a.y - 1, 12, 31⟩

/-- Python's `<=` on dates: lexicographic on (year, month, day). -/
def Ymd.lexLe (a b : Ymd) : Prop :=
  a.y < b.y ∨ (a.y = b.y ∧ (a.m < b.m ∨ (a.m = b.m ∧ a.d ≤ b.d)))

/-- Python's `<` on dates. -/
def Ymd.lexLt (a b : Ymd) : Prop :=
  a.y < b.y ∨ (a.y = b.y ∧ (a.m < b.m ∨ (a.m = b.m ∧ a.d < b.d)))

instance (a b : Ymd) : Decidable (a.lexLe b) := by unfold Ymd.lexLe; exact inferInstance

instance (a b : Ymd) : Decidable (a.lexLt b) := by unfold Ymd.lexLt; exact inferInstance

/-- Linear rank of a date; agrees with the lexicographic order on valid dates
and serves as the termination measure of the date loop. -/
def Ymd.rank (a : Ymd) : Nat := a.y * 512 + a.m * 40 + a.d

/-- The decimal digit characters used by `strftime`. -/
def digitChar : Nat → Char
  | 0 => '0'
  | 1 => '1'
  | 2 => '2'
  | 3 => '3'
  | 4 => '4'
  | 5 => '5'
  | 6 => '6'
  | 7 => '7'
  | 8 => '8'
  | _ => '9'

/-- Four-digit zero-padded print (`%Y`). -/
def pad4 (n : Nat) : List Char :=
  [digitChar (n / 1000), digitChar (n / 100 % 10), digitChar (n / 10 % 10), digitChar (n % 10)]

/-- Two-digit zero-padded print (`%m`, `%d`). -/
def pad2 (n : Nat) : List Char :=
  [digitChar (n / 10), digitChar (n % 10)]

/-- `strftime("%Y-%m-%d")`. -/
def Ymd.toDateStr (a : Ymd) : String :=
  ⟨pad4 a.y ++ ('-' :: pad2 a.m) ++ ('-' :: pad2 a.d)⟩

/-- Consume up to `n` further digit characters, accumulating their value. -/
def readNatAux : Nat → Nat → List Char → Nat × List Char
  | _, acc, [] => (acc, [])
  | 0, acc, cs => (acc, cs)
  | n + 1, acc, c :: cs =>
    if c.isDigit then readNatAux n (acc * 10 + (c.toNat - 48)) cs else (acc, c :: cs)

/-- Read a number of at least one and at most `maxLen` digits (as `strptime`
numeric directives do). -/
def readNat (maxLen : Nat) : List Char → Option (Nat × List Char)
  | [] => none
  | c :: cs => if c.isDigit then some (readNatAux (maxLen - 1) (c.toNat - 48) cs) else none

/-- Require the next character to be `ch`. -/
def expectChar (ch : Char) : List Char → Option (List Char)
  | [] => none
  | c :: cs => if c = ch then some cs else none

/-- `datetime.strptime(s, "%Y-%m-%d %H:%M:%S").date()`: parse the watermark
file's contents, validating the calendar fields, and keep the date part. -/
def parseWatermark (s : String) : Option Ymd := do
  let (yv, r1) ← readNat 4 s.data
  let r2 ← expectChar '-' r1
  let (mv, r3) ← readNat 2 r2
  let r4 ← expectChar '-' r3
  let (dv, r5) ← readNat 2 r4
  let r6 ← expectChar ' ' r5
  let (hh, r7) ← readNat 2 r6
  let r8 ← expectChar ':' r7
  let (mi, r9) ← readNat 2 r8
  let r10 ← expectChar ':' r9
  let (ss, r11) ← readNat 2 r10
  if r11 = [] ∧ (Ymd.mk yv mv dv).Valid ∧ hh < 24 ∧ mi < 60 ∧ ss < 62 then
    some ⟨yv, mv, dv⟩
  else none

/-- Fueled unfolding of the `while last_run <= yesterday` loop of
`__get_dates`; the fuel is instantiated with the rank distance, which is an
upper bound on the number of iterations. -/
def datesFromAux : Nat → Ymd → Ymd → List Ymd
  | 0, _, _ => []
  | f + 1, w, yest =>
    if w.lexLe yest then w :: datesFromAux f (nextDay w) yest else []

/-- The dates visited by the `__get_dates` loop, from `w` while `<= yest`. -/
def datesFrom (w yest : Ymd) : List Ymd :=
  datesFromAux (yest.rank + 1 - w.rank) w yest

/-- `__get_dates`, given the parsed watermark date and yesterday's date:
the list of `%Y-%m-%d` strings appended by the loop. -/
def getDates (w yest : Ymd) : List String :=
  (datesFrom w yest).map Ymd.toDateStr

/-- One entry of the job-history listing returned by the user_history API. -/
structure HistEntry where
  description : String
  uuid : String
  status : Nat
  downloaded : Bool
deriving DecidableEq, Repr

/-- The per-job record kept in the `jobs` dictionary.  `downloaded` is `none`
until the job is first matched in the listing (the Python dict entry starts
without that key). -/
structure Job where
  status : Nat
  uuid : String
  downloaded : Option Bool
deriving DecidableEq, Repr

/-- `{'status': 0, 'uuid': ""}`. -/
def initJob : Job := ⟨0, "", none⟩

/-- One job submission: `__submit_job(..., start_date, end_date, name)`
as observed through its POST payload. -/
structure Submission where
  name : String
  start_date : String
  end_date : String
deriving DecidableEq, Repr

/-- `__update_job_status`: for each tracked job, copy uuid/status/downloaded
from the first history entry whose description equals the job's key; jobs
with no matching entry are left unchanged. -/
def updateJobStatus (history : List HistEntry) (jobs : List (String × Job)) :
    List (String × Job) :=
  jobs.map (fun kj =>
    match history.find? (fun e => e.description == kj.1) with
    | some e => (kj.1, ⟨e.status, e.uuid, some e.downloaded⟩)
    | none => kj)

/-- `__download_job`: walk the jobs in order; for each job with listing status
3 and listing downloaded flag false, fetch the artifact by uuid and write the
parquet file at `download_path + name + ".parquet"`.  A failed fetch/decode
raises, so iteration stops: the writes performed so far are returned together
with `false`.  The tracked job records are not modified. -/
def downloadJob (dp : String) (artifact : String → Option String) :
    List (String × Job) → List (String × String) × Bool
  | [] => ([], true)
  | (k, j) :: rest =>
    if j.status = 3 ∧ j.downloaded = some false then
      match artifact j.uuid with
      | none => ([], false)
      | some blob =>
        let r := downloadJob dp artifact rest
        ((dp ++ k ++ ".parquet", blob) :: r.1, r.2)
    else downloadJob dp artifact rest

/-- Outcome of a run or loop: normal return, propagated exception, or fuel
exhausted (the unbounded Python loop still spinning). -/
inductive Outcome
  | ok
  | exn
  | fuel
deriving DecidableEq, Repr

/-- Result of `__download_all_remaining`: final tracked jobs, the file writes
performed inside the loop (in order), the next poll index, and the outcome. -/
structure LoopResult where
  jobs : List (String × Job)
  writes : List (String × String)
  k : Nat
  outcome : Outcome
deriving DecidableEq, Repr

/-- Whether `any(job['status'] != 3 for job in jobs.values())` holds. -/
def anyPendingJob (jobs : List (String × Job)) : Bool :=
  jobs.any (fun kj => kj.2.status != 3)

/-- `__download_all_remaining`: while some tracked status differs from 3,
sleep, refresh all jobs from the `k`-th poll of the history listing, and run
the download pass.  `fuel` bounds the number of iterations evaluated. -/
def downloadAllRemaining (dp : String) (histories : Nat → List HistEntry)
    (artifact : String → Option String) :
    Nat → Nat → List (String × Job) → LoopResult
  | 0, k, jobs =>
    if anyPendingJob jobs then ⟨jobs, [], k, .fuel⟩ else ⟨jobs, [], k, .ok⟩
  | f + 1, k, jobs =>
    if anyPendingJob jobs then
      let jobs2 := updateJobStatus (histories k) jobs
      let dj := downloadJob dp artifact jobs2
      if dj.2 then
        let r := downloadAllRemaining dp histories artifact f (k + 1) jobs2
        ⟨r.jobs, dj.1 ++ r.writes, r.k, r.outcome⟩
      else ⟨jobs2, dj.1, k + 1, .exn⟩
    else ⟨jobs, [], k, .ok⟩

/-- Configuration relevant to the verified fragment: the constructor's
`download_path` and `last_run` parameters. -/
structure Config where
  download_path : String
  last_run : String
deriving DecidableEq, Repr

/-- The explicit environment: clock readings, file system, poll responses and
artifact fetches. -/
structure Env where
  today : Ymd
  saveDate : Ymd
  files : String → Option String
  histories : Nat → List HistEntry
  artifact : String → Option String
  fuel : Nat

/-- Observable result of a run: whether login was reached, the submissions in
order, the parquet writes in order, the final tracked jobs, the watermark
file write (path and contents) if one happened, and the outcome. -/
structure RunResult where
  loggedIn : Bool
  submitted : List Submission
  writes : List (String × String)
  jobs : List (String × Job)
  savedWatermark : Option (String × String)
  outcome : Outcome
deriving DecidableEq, Repr

/-- Result of the per-date loop of `daily_download`. -/
structure DailyStep where
  submitted : List Submission
  writes : List (String × String)
  k : Nat
  jobs : List (String × Job)
  ok : Bool
deriving DecidableEq, Repr

/-- The `for date in date_list` loop of `daily_download`: submit a job named
by the date, sleep, refresh the whole jobs dict from the next poll, and run
the download pass; a raised download error aborts the loop. -/
def dailyLoop (dp : String) (histories : Nat → List HistEntry)
    (artifact : String → Option String) :
    List String → Nat → List (String × Job) → DailyStep
  | [], k, jobs => ⟨[], [], k, jobs, true⟩
  | date :: rest, k, jobs =>
    let jobs2 := updateJobStatus (histories k) jobs
    let dj := downloadJob dp artifact jobs2
    if dj.2 then
      let r := dailyLoop dp histories artifact rest (k + 1) jobs2
      ⟨⟨date, date, date⟩ :: r.submitted, dj.1 ++ r.writes, r.k, r.jobs, r.ok⟩
    else ⟨[⟨date, date, date⟩], dj.1, k + 1, jobs2, false⟩

/-- Body of `daily_download` once the outstanding date list is known: if it
is empty return immediately; otherwise initialize the jobs dict, log in,
submit/poll/download per date, drain the remaining jobs, and finally write
the new watermark -- `datetime.now().strftime('%Y-%m-%d 00:00:00')` taken at
save time -- to the hard-coded path `'last_run.txt'`. -/
def dailyRun (cfg : Config) (env : Env) (date_list : List String) : RunResult :=
  if date_list.isEmpty then ⟨false, [], [], [], none, .ok⟩
  else
    let jobs0 := date_list.map (fun d0 => (d0, initJob))
    let st := dailyLoop cfg.download_path env.histories env.artifact date_list 0 jobs0
    if st.ok then
      let r := downloadAllRemaining cfg.download_path env.histories env.artifact
        env.fuel st.k st.jobs
      match r.outcome with
      | .ok =>
        ⟨true, st.submitted, st.writes ++ r.writes, r.jobs,
          some ("last_run.txt", Ymd.toDateStr env.saveDate ++ " 00:00:00"), .ok⟩
      | o => ⟨true, st.submitted, st.writes ++ r.writes, r.jobs, none, o⟩
    else ⟨true, st.submitted, st.writes, st.jobs, none, .exn⟩

/-- `daily_download`: read and parse the watermark file at the configured
path, compute the outstanding dates through yesterday, and run the batch. -/
def daily_download (cfg : Config) (env : Env) : RunResult :=
  match env.files cfg.last_run with
  | none => ⟨false, [], [], [], none, .exn⟩
  | some content =>
    match parseWatermark content with
    | none => ⟨false, [], [], [], none, .exn⟩
    | some w => dailyRun cfg env (getDates w (prevDay env.today))

/-- `job_name.replace(' ', '_').replace(':', '')`. -/
def sanitize (s : String) : String :=
  ⟨(s.data.map (fun c => if c = ' ' then '_' else c)).filter (fun c => c != ':')⟩

/-- `single_download`: sanitize the caller's job name, track that single job,
log in, submit it for the caller's range, and drain the download loop.  The
watermark file is never read or written. -/
def single_download (cfg : Config) (env : Env)
    (start_date end_date job_name : String) : RunResult :=
  let name := sanitize job_name
  let r := downloadAllRemaining cfg.download_path env.histories env.artifact
    env.fuel 0 [(name, initJob)]
  ⟨true, [⟨name, start_date, end_date⟩], r.writes, r.jobs, none, r.outcome⟩

/-- Apply a sequence of file writes (earlier first) to a file-system map. -/
def applyWrites (files : String → Option String) :
    List (String × String) → String → Option String
  | [] => files
  | (p, c) :: rest => applyWrites (fun q => if q = p then some c else files q) rest

/-- The file system after a run: the parquet writes, then the watermark write
if one happened. -/
def fsAfter (files : String → Option String) (r : RunResult) : String → Option String :=
  match r.savedWatermark with
  | none => applyWrites files r.writes
  | some pc => fun q => if q = pc.1 then some pc.2 else applyWrites files r.writes q

/-! ## Concrete fixtures used to evaluate the model on explicit inputs -/

/-- A file system holding only a default-named watermark file. -/
def files0 : String → Option String :=
  fun p => if p = "last_run.txt" then some "2024-01-01 00:00:00" else none

/-- A listing that reports all three January jobs ready and already downloaded. -/
def hist3 : Nat → List HistEntry :=
  fun _ => [⟨"2024-01-01", "u1", 3, true⟩, ⟨"2024-01-02", "u2", 3, true⟩,
    ⟨"2024-01-03", "u3", 3, true⟩]

/-- Every fetch fails. -/
def noArtifact : String → Option String := fun _ => none

/-- Default configuration: `download_path='Data/'`, `last_run='last_run.txt'`. -/
def cfg0 : Config := ⟨"Data/", "last_run.txt"⟩

/-- Run started and saved on 2024-01-04, watermark 2024-01-01. -/
def env1 : Env := ⟨⟨2024, 1, 4⟩, ⟨2024, 1, 4⟩, files0, hist3, noArtifact, 1⟩

/-- Same run, but the final save executes after midnight, on 2024-01-05. -/
def env2 : Env := ⟨⟨2024, 1, 4⟩, ⟨2024, 1, 5⟩, files0, hist3, noArtifact, 1⟩

/-- Configuration with a non-default watermark path. -/
def cfg3 : Config := ⟨"Data/", "watermark.txt"⟩

/-- A file system holding the watermark under the configured non-default path. -/
def files3 : String → Option String :=
  fun p => if p = "watermark.txt" then some "2024-01-01 00:00:00" else none

/-- A listing reporting the single job ready and downloaded. -/
def hist1 : Nat → List HistEntry := fun _ => [⟨"2024-01-01", "u1", 3, true⟩]

/-- One-day run with the non-default watermark path. -/
def env3 : Env := ⟨⟨2024, 1, 2⟩, ⟨2024, 1, 2⟩, files3, hist1, noArtifact, 1⟩

/-- A batch whose only job the listing reports as ready (status 3) but not
downloaded, and for which no local persistence has happened. -/
def jobs4 : List (String × Job) := [("2024-01-01", ⟨3, "u1", some false⟩)]

/-- A listing reporting job `j` ready for download but not downloaded. -/
def hist6 : Nat → List HistEntry := fun _ => [⟨"j", "u", 3, false⟩]

/-- Fetching uuid `u` succeeds with payload `BLOB`. -/
def artifact6 : String → Option String := fun u => if u = "u" then some "BLOB" else none

/-- A listing reporting the single January job ready but not downloaded. -/
def hist8 : Nat → List HistEntry := fun _ => [⟨"2024-01-01", "u1", 3, false⟩]

/-- One-day run in which every artifact fetch fails. -/
def env8 : Env := ⟨⟨2024, 1, 2⟩, ⟨2024, 1, 2⟩, files0, hist8, noArtifact, 3⟩

/-- A listing that never returns any entry. -/
def emptyHist : Nat → List HistEntry := fun _ => []

/-- Environment with an empty listing and no fuel, for `single_download`. -/
def env9 : Env := ⟨⟨2024, 1, 2⟩, ⟨2024, 1, 2⟩, files0, emptyHist, noArtifact, 0⟩

/-! ## Date arithmetic lemmas -/

theorem rank_def (a : Ymd) : a.rank = a.y * 512 + a.m * 40 + a.d := rfl

theorem valid_def (a : Ymd) :
    a.Valid ↔ 1 ≤ a.y ∧ 1 ≤ a.m ∧ a.m ≤ 12 ∧ 1 ≤ a.d ∧ a.d ≤ daysInMonth a.y a.m :=
  Iff.rfl

theorem lexLe_def (a b : Ymd) :
    a.lexLe b ↔ a.y < b.y ∨ (a.y = b.y ∧ (a.m < b.m ∨ (a.m = b.m ∧ a.d ≤ b.d))) :=
  Iff.rfl

theorem lexLt_def (a b : Ymd) :
    a.lexLt b ↔ a.y < b.y ∨ (a.y = b.y ∧ (a.m < b.m ∨ (a.m = b.m ∧ a.d < b.d))) :=
  Iff.rfl

theorem daysInMonth_le (yy mm : Nat) : daysInMonth yy mm ≤ 31 := by
  unfold daysInMonth
  split
  · split <;> omega
  · split <;> omega

theorem daysInMonth_pos (yy mm : Nat) : 1 ≤ daysInMonth yy mm := by
  unfold daysInMonth
  split
  · split <;> omega
  · split <;> omega

theorem nextDay_valid {a : Ymd} (h : a.Valid) : (nextDay a).Valid := by
  rw [valid_def] at h
  have hp2 := daysInMonth_pos a.y (a.m + 1)
  have hp1 := daysInMonth_pos (a.y + 1) 1
  unfold nextDay
  split
  next hd => rw [valid_def]; dsimp only; omega
  next hd =>
    split
    next hm => rw [valid_def]; dsimp only; omega
    next hm => rw [valid_def]; dsimp only; omega

theorem rank_lt_nextDay {a : Ymd} (h : a.Valid) : a.rank < (nextDay a).rank := by
  rw [valid_def] at h
  have hle := daysInMonth_le a.y a.m
  unfold nextDay
  split
  · simp only [rank_def]; omega
  · split
    · simp only [rank_def]; omega
    · simp only [rank_def]; omega

theorem lexLe_iff_rank {a b : Ymd} (ha : a.Valid) (hb : b.Valid) :
    a.lexLe b ↔ a.rank ≤ b.rank := by
  rw [valid_def] at ha hb
  have h1 := daysInMonth_le a.y a.m
  have h2 := daysInMonth_le b.y b.m
  rw [lexLe_def, rank_def, rank_def]
  omega

theorem lexLt_iff_rank {a b : Ymd} (ha : a.Valid) (hb : b.Valid) :
    a.lexLt b ↔ a.rank < b.rank := by
  rw [valid_def] at ha hb
  have h1 := daysInMonth_le a.y a.m
  have h2 := daysInMonth_le b.y b.m
  rw [lexLt_def, rank_def, rank_def]
  omega

theorem lexLe_refl (a : Ymd) : a.lexLe a := by
  rw [lexLe_def]; omega

theorem lexLt_irrefl (a : Ymd) : ¬ a.lexLt a := by
  rw [lexLt_def]; omega

theorem eq_or_lexLt_of_lexLe {a b : Ymd} (h : a.lexLe b) : a = b ∨ a.lexLt b := by
  rw [lexLe_def] at h
  rw [lexLt_def]
  rcases a with ⟨a1, a2, a3⟩
  rcases b with ⟨b1, b2, b3⟩
  simp only [Ymd.mk.injEq]
  dsimp only at h ⊢
  omega

theorem nextDay_le_of_lt {a b : Ymd} (ha : a.Valid) (hb : b.Valid) (h : a.lexLt b) :
    (nextDay a).lexLe b := by
  rw [valid_def] at ha hb
  rw [lexLt_def] at h
  unfold nextDay
  split
  next hd => rw [lexLe_def]; dsimp only; omega
  next hd =>
    split
    next hm =>
      rw [lexLe_def]; dsimp only
      by_cases hy : a.y = b.y
      · by_cases hmm : a.m = b.m
        · exfalso
          have hdim : daysInMonth a.y a.m = daysInMonth b.y b.m := by rw [hy, hmm]
          omega
        · omega
      · omega
    next hm =>
      rw [lexLe_def]; dsimp only
      by_cases hy : a.y = b.y
      · by_cases hmm : a.m = b.m
        · exfalso
          have hdim : daysInMonth a.y a.m = daysInMonth b.y b.m := by rw [hy, hmm]
          omega
        · omega
      · omega

/-- Full characterization of the `__get_dates` loop body: its elements are
exactly the valid dates between the watermark and yesterday (inclusive), it
is strictly increasing, and it is empty exactly when the watermark is past
yesterday. -/
theorem datesFromAux_spec (f : Nat) :
    ∀ (w yest : Ymd), w.Valid → yest.Valid → yest.rank + 1 - w.rank ≤ f →
      (∀ x ∈ datesFromAux f w yest, x.Valid ∧ w.lexLe x ∧ x.lexLe yest)
      ∧ (∀ x : Ymd, x.Valid → w.lexLe x → x.lexLe yest → x ∈ datesFromAux f w yest)
      ∧ (datesFromAux f w yest).Pairwise Ymd.lexLt
      ∧ (datesFromAux f w yest = [] ↔ ¬ w.lexLe yest) := by
  induction f with
  | zero =>
    intro w yest hw hy hf
    have hr : ¬ w.lexLe yest := by
      rw [lexLe_iff_rank hw hy]; omega
    refine ⟨?_, ?_, ?_, ?_⟩
    · intro x hx; simp [datesFromAux] at hx
    · intro x hx hwx hxy
      refine absurd ((lexLe_iff_rank hw hy).mpr ?_) hr
      exact le_trans ((lexLe_iff_rank hw hx).mp hwx) ((lexLe_iff_rank hx hy).mp hxy)
    · simp [datesFromAux]
    · simp [datesFromAux, hr]
  | succ n ih =>
    intro w yest hw hy hf
    by_cases hwy : w.lexLe yest
    · have hw' : (nextDay w).Valid := nextDay_valid hw
      have hrlt : w.rank < (nextDay w).rank := rank_lt_nextDay hw
      have hwr : w.rank ≤ yest.rank := (lexLe_iff_rank hw hy).mp hwy
      have hf' : yest.rank + 1 - (nextDay w).rank ≤ n := by omega
      obtain ⟨ih1, ih2, ih3, ih4⟩ := ih (nextDay w) yest hw' hy hf'
      have hlist : datesFromAux (n + 1) w yest = w :: datesFromAux n (nextDay w) yest := by
        simp [datesFromAux, hwy]
      refine ⟨?_, ?_, ?_, ?_⟩
      · intro x hx
        rw [hlist] at hx
        rcases List.mem_cons.mp hx with h | h
        · subst h; exact ⟨hw, lexLe_refl _, hwy⟩
        · obtain ⟨hv, hge, hle⟩ := ih1 x h
          refine ⟨hv, ?_, hle⟩
          rw [lexLe_iff_rank hw hv]
          have := (lexLe_iff_rank hw' hv).mp hge
          omega
      · intro x hx hwx hxy
        rw [hlist]
        rcases eq_or_lexLt_of_lexLe hwx with h | h
        · exact List.mem_cons.mpr (Or.inl h.symm)
        · exact List.mem_cons.mpr (Or.inr (ih2 x hx (nextDay_le_of_lt hw hx h) hxy))
      · rw [hlist]
        refine List.Pairwise.cons ?_ ih3
        intro e he
        obtain ⟨hv, hge, _⟩ := ih1 e he
        rw [lexLt_iff_rank hw hv]
        have := (lexLe_iff_rank hw' hv).mp hge
        omega
      · rw [hlist]; simp [hwy]
    · have hlist : datesFromAux (n + 1) w yest = [] := by simp [datesFromAux, hwy]
      refine ⟨?_, ?_, ?_, ?_⟩
      · intro x hx; rw [hlist] at hx; simp at hx
      · intro x hx hwx hxy
        refine absurd ((lexLe_iff_rank hw hy).mpr ?_) hwy
        exact le_trans ((lexLe_iff_rank hw hx).mp hwx) ((lexLe_iff_rank hx hy).mp hxy)
      · rw [hlist]; exact List.Pairwise.nil
      · rw [hlist]; simp [hwy]

theorem datesFrom_spec (w yest : Ymd) (hw : w.Valid) (hy : yest.Valid) :
    (∀ x ∈ datesFrom w yest, x.Valid ∧ w.lexLe x ∧ x.lexLe yest)
    ∧ (∀ x : Ymd, x.Valid → w.lexLe x → x.lexLe yest → x ∈ datesFrom w yest)
    ∧ (datesFrom w yest).Pairwise Ymd.lexLt
    ∧ (datesFrom w yest = [] ↔ ¬ w.lexLe yest) :=
  datesFromAux_spec _ w yest hw hy (le_refl _)

/-! ## Injectivity of the `%Y-%m-%d` formatting -/

theorem digitChar_inj : ∀ x < 10, ∀ z < 10, digitChar x = digitChar z → x = z := by
  decide

theorem toDateStr_inj {a b : Ymd} (ha : a.Valid) (hb : b.Valid)
    (ha9 : a.y ≤ 9999) (hb9 : b.y ≤ 9999) (h : a.toDateStr = b.toDateStr) : a = b := by
  rw [valid_def] at ha hb
  have hda := daysInMonth_le a.y a.m
  have hdb := daysInMonth_le b.y b.m
  unfold Ymd.toDateStr at h
  have hl : pad4 a.y ++ ('-' :: pad2 a.m) ++ ('-' :: pad2 a.d)
      = pad4 b.y ++ ('-' :: pad2 b.m) ++ ('-' :: pad2 b.d) := congrArg String.data h
  simp only [pad4, pad2, List.cons_append, List.nil_append] at hl
  injection hl with e1 hl
  injection hl with e2 hl
  injection hl with e3 hl
  injection hl with e4 hl
  injection hl with ee1 hl
  injection hl with e5 hl
  injection hl with e6 hl
  injection hl with ee2 hl
  injection hl with e7 hl
  injection hl with e8 hl
  have g1 := digitChar_inj _ (by omega) _ (by omega) e1
  have g2 := digitChar_inj _ (by omega) _ (by omega) e2
  have g3 := digitChar_inj _ (by omega) _ (by omega) e3
  have g4 := digitChar_inj _ (by omega) _ (by omega) e4
  have g5 := digitChar_inj _ (by omega) _ (by omega) e5
  have g6 := digitChar_inj _ (by omega) _ (by omega) e6
  have g7 := digitChar_inj _ (by omega) _ (by omega) e7
  have g8 := digitChar_inj _ (by omega) _ (by omega) e8
  ext
  · omega
  · omega
  · omega

theorem getDates_nodup (w yest : Ymd) (hw : w.Valid) (hy : yest.Valid)
    (hy9 : yest.y ≤ 9999) : (getDates w yest).Nodup := by
  obtain ⟨h1, _, h3, _⟩ := datesFrom_spec w yest hw hy
  have hnd : (datesFrom w yest).Nodup :=
    h3.imp (fun {x z} hxz he => by subst he; exact lexLt_irrefl _ hxz)
  refine List.Nodup.map_on ?_ hnd
  intro x hx z hz hxz
  obtain ⟨hvx, _, hlex⟩ := h1 x hx
  obtain ⟨hvz, _, hlez⟩ := h1 z hz
  have hx9 : x.y ≤ 9999 := by
    have hr := (lexLe_iff_rank hvx hy).mp hlex
    rw [rank_def, rank_def] at hr
    rw [valid_def] at hvx hy
    have := daysInMonth_le yest.y yest.m
    omega
  have hz9 : z.y ≤ 9999 := by
    have hr := (lexLe_iff_rank hvz hy).mp hlez
    rw [rank_def, rank_def] at hr
    rw [valid_def] at hvz hy
    have := daysInMonth_le yest.y yest.m
    omega
  exact toDateStr_inj hvx hvz hx9 hz9 hxz

/-! ## Job-tracking lemmas -/

theorem anyPendingJob_false_iff (jobs : List (String × Job)) :
    anyPendingJob jobs = false ↔ ∀ kj ∈ jobs, kj.2.status = 3 := by
  simp [anyPendingJob, List.any_eq_false, bne_iff_ne]

/-- If no tracked status differs from 3, the polling loop exits at once,
with no poll, no download and no write, whatever the fuel. -/
theorem loop_exit_now (dp : String) (hist : Nat → List HistEntry)
    (art : String → Option String) (f k : Nat) (jobs : List (String × Job))
    (h : anyPendingJob jobs = false) :
    downloadAllRemaining dp hist art f k jobs = ⟨jobs, [], k, .ok⟩ := by
  cases f <;> simp [downloadAllRemaining, h]

/-- Stepping the polling loop while some status differs from 3. -/
theorem loop_step (dp : String) (hist : Nat → List HistEntry)
    (art : String → Option String) (f k : Nat) (jobs : List (String × Job))
    (h : anyPendingJob jobs = true) :
    downloadAllRemaining dp hist art (f + 1) k jobs =
      (if (downloadJob dp art (updateJobStatus (hist k) jobs)).2 then
        ⟨(downloadAllRemaining dp hist art f (k + 1) (updateJobStatus (hist k) jobs)).jobs,
          (downloadJob dp art (updateJobStatus (hist k) jobs)).1 ++
            (downloadAllRemaining dp hist art f (k + 1) (updateJobStatus (hist k) jobs)).writes,
          (downloadAllRemaining dp hist art f (k + 1) (updateJobStatus (hist k) jobs)).k,
          (downloadAllRemaining dp hist art f (k + 1) (updateJobStatus (hist k) jobs)).outcome⟩
      else ⟨updateJobStatus (hist k) jobs,
        (downloadJob dp art (updateJobStatus (hist k) jobs)).1, k + 1, .exn⟩) := by
  simp [downloadAllRemaining, h]

/-- When the polling loop returns normally, every tracked status is 3. -/
theorem loop_ok_status (dp : String) (hist : Nat → List HistEntry)
    (art : String → Option String) :
    ∀ (f k : Nat) (jobs : List (String × Job)),
      (downloadAllRemaining dp hist art f k jobs).outcome = .ok →
      ∀ kj ∈ (downloadAllRemaining dp hist art f k jobs).jobs, kj.2.status = 3 := by
  intro f
  induction f with
  | zero =>
    intro k jobs h kj hm
    by_cases hp : anyPendingJob jobs = true
    · simp [downloadAllRemaining, hp] at h
    · rw [Bool.not_eq_true] at hp
      rw [loop_exit_now dp hist art 0 k jobs hp] at hm
      exact (anyPendingJob_false_iff jobs).mp hp kj hm
  | succ n ih =>
    intro k jobs h kj hm
    by_cases hp : anyPendingJob jobs = true
    · rw [loop_step dp hist art n k jobs hp] at h hm
      by_cases hd : (downloadJob dp art (updateJobStatus (hist k) jobs)).2 = true
      · simp only [hd, if_true] at h hm
        exact ih (k + 1) (updateJobStatus (hist k) jobs) h kj hm
      · rw [Bool.not_eq_true] at hd
        simp only [hd, Bool.false_eq_true, if_false] at h
        exact absurd h (by decide)
    · rw [Bool.not_eq_true] at hp
      rw [loop_exit_now dp hist art (n + 1) k jobs hp] at hm
      exact (anyPendingJob_false_iff jobs).mp hp kj hm

/-- Keys are preserved by a reconciliation pass. -/
theorem updateJobStatus_keys (hist : List HistEntry) (jobs : List (String × Job)) :
    (updateJobStatus hist jobs).map Prod.fst = jobs.map Prod.fst := by
  unfold updateJobStatus
  rw [List.map_map]
  apply List.map_congr_left
  intro kj _
  cases hfind : hist.find? (fun e => e.description == kj.1) <;> simp [hfind]

/-- Keys are preserved by the polling loop. -/
theorem loop_keys (dp : String) (hist : Nat → List HistEntry)
    (art : String → Option String) :
    ∀ (f k : Nat) (jobs : List (String × Job)),
      (downloadAllRemaining dp hist art f k jobs).jobs.map Prod.fst = jobs.map Prod.fst := by
  intro f
  induction f with
  | zero =>
    intro k jobs
    by_cases hp : anyPendingJob jobs = true <;> simp [downloadAllRemaining, hp]
  | succ n ih =>
    intro k jobs
    by_cases hp : anyPendingJob jobs = true
    · rw [loop_step dp hist art n k jobs hp]
      by_cases hd : (downloadJob dp art (updateJobStatus (hist k) jobs)).2 = true
      · simp only [hd, if_true]
        rw [ih (k + 1) (updateJobStatus (hist k) jobs), updateJobStatus_keys]
      · rw [Bool.not_eq_true] at hd
        simp only [hd, Bool.false_eq_true, if_false]
        exact updateJobStatus_keys _ _
    · rw [Bool.not_eq_true] at hp
      rw [loop_exit_now dp hist art (n + 1) k jobs hp]

/-- Every write of a download pass is the parquet file of one of the tracked
jobs, at the path derived from that job's name. -/
theorem downloadJob_writes (dp : String) (art : String → Option String) :
    ∀ (jobs : List (String × Job)) (p c : String),
      (p, c) ∈ (downloadJob dp art jobs).1 →
      ∃ kj ∈ jobs, p = dp ++ kj.1 ++ ".parquet" := by
  intro jobs
  induction jobs with
  | nil => intro p c h; simp [downloadJob] at h
  | cons kj rest ih =>
    intro p c h
    obtain ⟨k, j⟩ := kj
    unfold downloadJob at h
    by_cases hc : j.status = 3 ∧ j.downloaded = some false
    · rw [if_pos hc] at h
      cases ha : art j.uuid with
      | none =>
        simp only [ha] at h
        exact absurd h (List.not_mem_nil _)
      | some blob =>
        simp only [ha, List.mem_cons] at h
        rcases h with h | h
        · refine ⟨(k, j), List.mem_cons_self _ _, ?_⟩
          have := congrArg Prod.fst h
          simpa using this
        · obtain ⟨kj2, hm, hp⟩ := ih p c h
          exact ⟨kj2, List.mem_cons_of_mem _ hm, hp⟩
    · rw [if_neg hc] at h
      obtain ⟨kj2, hm, hp⟩ := ih p c h
      exact ⟨kj2, List.mem_cons_of_mem _ hm, hp⟩

/-- Every write of the polling loop is the parquet file of one of the batch's
job names. -/
theorem loop_writes (dp : String) (hist : Nat → List HistEntry)
    (art : String → Option String) :
    ∀ (f k : Nat) (jobs : List (String × Job)) (p c : String),
      (p, c) ∈ (downloadAllRemaining dp hist art f k jobs).writes →
      ∃ s2 ∈ jobs.map Prod.fst, p = dp ++ s2 ++ ".parquet" := by
  intro f
  induction f with
  | zero =>
    intro k jobs p c h
    by_cases hp : anyPendingJob jobs = true <;> simp [downloadAllRemaining, hp] at h
  | succ n ih =>
    intro k jobs p c h
    by_cases hp : anyPendingJob jobs = true
    · rw [loop_step dp hist art n k jobs hp] at h
      by_cases hd : (downloadJob dp art (updateJobStatus (hist k) jobs)).2 = true
      · simp only [hd, if_true, List.mem_append] at h
        rcases h with h | h
        · obtain ⟨kj2, hm, hpp⟩ := downloadJob_writes dp art _ p c h
          refine ⟨kj2.1, ?_, hpp⟩
          rw [← updateJobStatus_keys (hist k) jobs]
          exact List.mem_map_of_mem Prod.fst hm
        · obtain ⟨s2, hm, hpp⟩ := ih (k + 1) (updateJobStatus (hist k) jobs) p c h
          refine ⟨s2, ?_, hpp⟩
          rw [← updateJobStatus_keys (hist k) jobs]
          exact hm
      · rw [Bool.not_eq_true] at hd
        simp only [hd, Bool.false_eq_true, if_false] at h
        obtain ⟨kj2, hm, hpp⟩ := downloadJob_writes dp art _ p c h
        refine ⟨kj2.1, ?_, hpp⟩
        rw [← updateJobStatus_keys (hist k) jobs]
        exact List.mem_map_of_mem Prod.fst hm
    · rw [Bool.not_eq_true] at hp
      rw [loop_exit_now dp hist art (n + 1) k jobs hp] at h
      simp at h

/-- A file that is never written keeps its contents. -/
theorem applyWrites_eq_of_not_mem :
    ∀ (ws : List (String × String)) (files : String → Option String) (q : String),
      (∀ pc ∈ ws, pc.1 ≠ q) → applyWrites files ws q = files q := by
  intro ws
  induction ws with
  | nil => intro files q h; rfl
  | cons pc rest ih =>
    intro files q h
    obtain ⟨p, c⟩ := pc
    unfold applyWrites
    rw [ih _ q (fun x hx => h x (List.mem_cons_of_mem _ hx))]
    have hp : p ≠ q := h (p, c) (List.mem_cons_self _ _)
    rw [if_neg (Ne.symm hp)]

/-- Each entry of a reconciled job map either carries exactly the fields of
the first matching listing entry, or is the unchanged input entry when no
listing entry matches its key. -/
theorem updateJobStatus_mem (hist : List HistEntry) (jobs : List (String × Job)) :
    ∀ kp ∈ updateJobStatus hist jobs,
      (∃ e, hist.find? (fun e2 => e2.description == kp.1) = some e
        ∧ kp.2 = ⟨e.status, e.uuid, some e.downloaded⟩)
      ∨ (kp ∈ jobs ∧ hist.find? (fun e2 => e2.description == kp.1) = none) := by
  intro kp hm
  unfold updateJobStatus at hm
  obtain ⟨kj, hkj, heq⟩ := List.mem_map.mp hm
  cases hfind : hist.find? (fun e => e.description == kj.1) with
  | some e =>
    simp only [hfind] at heq
    subst heq
    exact Or.inl ⟨e, hfind, rfl⟩
  | none =>
    simp only [hfind] at heq
    subst heq
    exact Or.inr ⟨hkj, hfind⟩

/-- When every matching listing entry reports a status at least as large as
the tracked one, a reconciliation pass never decreases any tracked status. -/
theorem updateJobStatus_status_mono (hist : List HistEntry) (jobs : List (String × Job))
    (h : ∀ kj ∈ jobs, ∀ e, hist.find? (fun e2 => e2.description == kj.1) = some e →
      kj.2.status ≤ e.status) :
    List.Forall₂ (fun kj kj2 : String × Job => kj.1 = kj2.1 ∧ kj.2.status ≤ kj2.2.status)
      jobs (updateJobStatus hist jobs) := by
  induction jobs with
  | nil => exact List.Forall₂.nil
  | cons kj rest ih =>
    unfold updateJobStatus
    simp only [List.map_cons]
    refine List.Forall₂.cons ?_ ?_
    · cases hfind : hist.find? (fun e => e.description == kj.1) with
      | some e =>
        simp only [hfind]
        exact ⟨by trivial, h kj (List.mem_cons_self _ _) e hfind⟩
      | none =>
        simp only [hfind]
        exact ⟨by trivial, le_refl _⟩
    · exact ih (fun kj2 hm e he => h kj2 (List.mem_cons_of_mem _ hm) e he)

/-- When every eligible job's artifact is fetchable, the download pass
succeeds and its writes are exactly one parquet file per eligible job, in
order, at the path derived from the job's name. -/
theorem downloadJob_eq (dp : String) (art : String → Option String) :
    ∀ jobs : List (String × Job),
      (∀ kj ∈ jobs, kj.2.status = 3 ∧ kj.2.downloaded = some false →
        ∃ b, art kj.2.uuid = some b) →
      downloadJob dp art jobs =
        ((jobs.filter (fun kj => decide (kj.2.status = 3 ∧ kj.2.downloaded = some false))).map
          (fun kj => (dp ++ kj.1 ++ ".parquet", (art kj.2.uuid).getD "")), true) := by
  intro jobs
  induction jobs with
  | nil => intro h; rfl
  | cons kj rest ih =>
    intro h
    obtain ⟨k, j⟩ := kj
    unfold downloadJob
    by_cases hc : j.status = 3 ∧ j.downloaded = some false
    · rw [if_pos hc]
      obtain ⟨blob, hb⟩ := h (k, j) (List.mem_cons_self _ _) hc
      simp only [hb]
      rw [ih (fun kj2 hm hc2 => h kj2 (List.mem_cons_of_mem _ hm) hc2)]
      simp [List.filter_cons, hc, hb]
    · rw [if_neg hc]
      rw [ih (fun kj2 hm hc2 => h kj2 (List.mem_cons_of_mem _ hm) hc2)]
      simp [List.filter_cons, hc]

/-- Stepping the per-date loop when the download pass raises no error. -/
theorem dailyLoop_step_ok (dp : String) (hist : Nat → List HistEntry)
    (art : String → Option String) (date : String) (rest : List String)
    (k : Nat) (jobs : List (String × Job))
    (hd : (downloadJob dp art (updateJobStatus (hist k) jobs)).2 = true) :
    dailyLoop dp hist art (date :: rest) k jobs =
      ⟨⟨date, date, date⟩ ::
          (dailyLoop dp hist art rest (k + 1) (updateJobStatus (hist k) jobs)).submitted,
        (downloadJob dp art (updateJobStatus (hist k) jobs)).1 ++
          (dailyLoop dp hist art rest (k + 1) (updateJobStatus (hist k) jobs)).writes,
        (dailyLoop dp hist art rest (k + 1) (updateJobStatus (hist k) jobs)).k,
        (dailyLoop dp hist art rest (k + 1) (updateJobStatus (hist k) jobs)).jobs,
        (dailyLoop dp hist art rest (k + 1) (updateJobStatus (hist k) jobs)).ok⟩ := by
  simp [dailyLoop, hd]

/-- Stepping the per-date loop when the download pass raises. -/
theorem dailyLoop_step_err (dp : String) (hist : Nat → List HistEntry)
    (art : String → Option String) (date : String) (rest : List String)
    (k : Nat) (jobs : List (String × Job))
    (hd : (downloadJob dp art (updateJobStatus (hist k) jobs)).2 = false) :
    dailyLoop dp hist art (date :: rest) k jobs =
      ⟨[⟨date, date, date⟩], (downloadJob dp art (updateJobStatus (hist k) jobs)).1,
        k + 1, updateJobStatus (hist k) jobs, false⟩ := by
  simp [dailyLoop, hd]

/-- When the per-date loop raises no error, it submits exactly one job per
date, named by the date, in list order. -/
theorem dailyLoop_ok_submitted (dp : String) (hist : Nat → List HistEntry)
    (art : String → Option String) :
    ∀ (dates : List String) (k : Nat) (jobs : List (String × Job)),
      (dailyLoop dp hist art dates k jobs).ok = true →
      (dailyLoop dp hist art dates k jobs).submitted =
        dates.map (fun d0 => ⟨d0, d0, d0⟩) := by
  intro dates
  induction dates with
  | nil => intro k jobs _; rfl
  | cons date rest ih =>
    intro k jobs h
    by_cases hd : (downloadJob dp art (updateJobStatus (hist k) jobs)).2 = true
    · rw [dailyLoop_step_ok dp hist art date rest k jobs hd] at h ⊢
      simp only [List.map_cons, List.cons.injEq]
      exact ⟨by trivial, ih (k + 1) (updateJobStatus (hist k) jobs) h⟩
    · rw [Bool.not_eq_true] at hd
      rw [dailyLoop_step_err dp hist art date rest k jobs hd] at h
      simp at h

/-- Shape of a `dailyRun` result: either it failed and saved no watermark,
or it was the empty no-op, or it succeeded and saved the watermark derived
from the save-time clock to the hard-coded path. -/
theorem dailyRun_shape (cfg : Config) (env : Env) (dl : List String) :
    ((dailyRun cfg env dl).savedWatermark = none ∧ (dailyRun cfg env dl).outcome ≠ .ok)
    ∨ (dl = [] ∧ dailyRun cfg env dl = ⟨false, [], [], [], none, .ok⟩)
    ∨ ((dailyRun cfg env dl).outcome = .ok ∧
        (dailyRun cfg env dl).savedWatermark =
          some ("last_run.txt", Ymd.toDateStr env.saveDate ++ " 00:00:00")) := by
  by_cases he : dl.isEmpty = true
  · refine Or.inr (Or.inl ⟨by simpa [List.isEmpty_iff] using he, ?_⟩)
    simp [dailyRun, he]
  · rw [Bool.not_eq_true] at he
    by_cases hok2 : (dailyLoop cfg.download_path env.histories env.artifact dl 0
        (dl.map (fun d0 => (d0, initJob)))).ok = true
    · cases ho : (downloadAllRemaining cfg.download_path env.histories env.artifact env.fuel
          (dailyLoop cfg.download_path env.histories env.artifact dl 0
            (dl.map (fun d0 => (d0, initJob)))).k
          (dailyLoop cfg.download_path env.histories env.artifact dl 0
            (dl.map (fun d0 => (d0, initJob)))).jobs).outcome with
      | ok =>
        refine Or.inr (Or.inr ⟨?_, ?_⟩) <;> simp [dailyRun, he, hok2, ho]
      | exn =>
        refine Or.inl ⟨?_, ?_⟩ <;> simp [dailyRun, he, hok2, ho]
      | fuel =>
        refine Or.inl ⟨?_, ?_⟩ <;> simp [dailyRun, he, hok2, ho]
    · rw [Bool.not_eq_true] at hok2
      refine Or.inl ⟨?_, ?_⟩ <;> simp [dailyRun, he, hok2]

/-- When a `dailyRun` returns normally, it submitted exactly one job per
date, named by the date, in list order. -/
theorem dailyRun_submitted_of_ok (cfg : Config) (env : Env) (dl : List String)
    (hok : (dailyRun cfg env dl).outcome = .ok) :
    (dailyRun cfg env dl).submitted = dl.map (fun d0 => ⟨d0, d0, d0⟩) := by
  by_cases he : dl.isEmpty = true
  · have hdl : dl = [] := by simpa [List.isEmpty_iff] using he
    subst hdl
    rfl
  · rw [Bool.not_eq_true] at he
    by_cases hok2 : (dailyLoop cfg.download_path env.histories env.artifact dl 0
        (dl.map (fun d0 => (d0, initJob)))).ok = true
    · have hsub := dailyLoop_ok_submitted cfg.download_path env.histories env.artifact dl 0
        (dl.map (fun d0 => (d0, initJob))) hok2
      cases ho : (downloadAllRemaining cfg.download_path env.histories env.artifact env.fuel
          (dailyLoop cfg.download_path env.histories env.artifact dl 0
            (dl.map (fun d0 => (d0, initJob)))).k
          (dailyLoop cfg.download_path env.histories env.artifact dl 0
            (dl.map (fun d0 => (d0, initJob)))).jobs).outcome with
      | ok => simpa [dailyRun, he, hok2, ho] using hsub
      | exn => simp [dailyRun, he, hok2, ho] at hok
      | fuel => simp [dailyRun, he, hok2, ho] at hok
    · rw [Bool.not_eq_true] at hok2
      simp [dailyRun, he, hok2] at hok

/-- With the watermark file present and parsable, `daily_download` is the
batch run on the computed outstanding dates. -/
theorem daily_download_eq (cfg : Config) (env : Env) (s : String) (w : Ymd)
    (hf : env.files cfg.last_run = some s) (hp : parseWatermark s = some w) :
    daily_download cfg env = dailyRun cfg env (getDates w (prevDay env.today)) := by
  simp [daily_download, hf, hp]

/-- The name sanitation is the identity on character lists that contain no
space and no colon. -/
theorem sanitize_id_chars :
    ∀ l : List Char, (∀ c ∈ l, c ≠ ' ' ∧ c ≠ ':') →
      (l.map (fun c => if c = ' ' then '_' else c)).filter (fun c => c != ':') = l := by
  intro l
  induction l with
  | nil => intro _; rfl
  | cons c cs ih =>
    intro h
    obtain ⟨hc1, hc2⟩ := h c (List.mem_cons_self _ _)
    simp only [List.map_cons]
    rw [if_neg hc1, List.filter_cons, if_pos (by simp [hc2])]
    rw [ih (fun c2 hm => h c2 (List.mem_cons_of_mem _ hm))]

/-- The name sanitation is the identity on strings without spaces or colons. -/
theorem sanitize_eq_self (s : String) (h : ∀ c ∈ s.data, c ≠ ' ' ∧ c ≠ ':') :
    sanitize s = s := by
  have hd := sanitize_id_chars s.data h
  unfold sanitize
  cases s with
  | mk l => exact congrArg String.mk hd

/-! ## Claim theorems -/

/-- Claim C1: for every watermark date `w` loaded from the last_run file and
every current date, `daily_download` computes the outstanding list as exactly
the calendar dates from `w` through yesterday inclusive, in chronological
order; it submits (on a normal run) exactly one job per date, named by the
date's `YYYY-MM-DD` string, with names unique within the batch; and when the
list is empty it returns immediately without logging in, submitting, or
writing any file. -/
theorem claim1_daily_outstanding_dates (cfg : Config) (env : Env) (s : String) (w : Ymd)
    (hf : env.files cfg.last_run = some s) (hp : parseWatermark s = some w)
    (hw : w.Valid) (hy : (prevDay env.today).Valid) (hy9 : (prevDay env.today).y ≤ 9999) :
    (∀ x ∈ datesFrom w (prevDay env.today), x.Valid ∧ w.lexLe x ∧ x.lexLe (prevDay env.today))
    ∧ (∀ x : Ymd, x.Valid → w.lexLe x → x.lexLe (prevDay env.today) →
        x ∈ datesFrom w (prevDay env.today))
    ∧ (datesFrom w (prevDay env.today)).Pairwise Ymd.lexLt
    ∧ (getDates w (prevDay env.today)).Nodup
    ∧ (¬ w.lexLe (prevDay env.today) →
        daily_download cfg env = ⟨false, [], [], [], none, .ok⟩)
    ∧ ((daily_download cfg env).outcome = .ok →
        (daily_download cfg env).submitted =
          (getDates w (prevDay env.today)).map (fun d0 => ⟨d0, d0, d0⟩)) := by
  obtain ⟨h1, h2, h3, h4⟩ := datesFrom_spec w (prevDay env.today) hw hy
  refine ⟨h1, h2, h3, getDates_nodup _ _ hw hy hy9, ?_, ?_⟩
  · intro hne
    have hdl : getDates w (prevDay env.today) = [] := by
      unfold getDates
      rw [h4.mpr hne]
      rfl
    rw [daily_download_eq cfg env s w hf hp, hdl]
    rfl
  · intro hok
    rw [daily_download_eq cfg env s w hf hp] at hok ⊢
    exact dailyRun_submitted_of_ok cfg env _ hok

/-- Claim C1 witness: on the concrete scenario (watermark 2024-01-01, run on
2024-01-04) the hypotheses hold and the run submits the three expected jobs. -/
theorem claim1_witness :
    env1.files cfg0.last_run = some "2024-01-01 00:00:00"
    ∧ ((daily_download cfg0 env1).outcome = .ok →
        (daily_download cfg0 env1).submitted =
          (getDates ⟨2024, 1, 1⟩ (prevDay env1.today)).map (fun d0 => ⟨d0, d0, d0⟩)) :=
  ⟨by decide,
    (claim1_daily_outstanding_dates cfg0 env1 "2024-01-01 00:00:00" ⟨2024, 1, 1⟩
      (by decide) (by decide) (by decide) (by decide) (by decide)).2.2.2.2.2⟩

/-- Claim C2 counterexample: with loaded watermark 2024-01-01 and run date
2024-01-04, if the final save executes after midnight the persisted value is
`2024-01-05 00:00:00`, not `2024-01-04 00:00:00`; so the saved value is not
independent of when during the run the save executes. -/
theorem claim2_cex :
    env2.files cfg0.last_run = some "2024-01-01 00:00:00"
    ∧ env2.today = ⟨2024, 1, 4⟩
    ∧ (daily_download cfg0 env2).outcome = .ok
    ∧ (daily_download cfg0 env2).savedWatermark = some ("last_run.txt", "2024-01-05 00:00:00")
    ∧ (daily_download cfg0 env2).savedWatermark ≠ some ("last_run.txt", "2024-01-04 00:00:00") := by
  decide

/-- Claim C2 (amended): whenever `daily_download` persists a watermark, the
persisted value is the current calendar date at the moment the save executes,
at midnight (`datetime.now().strftime('%Y-%m-%d 00:00:00')`), written to the
hard-coded path `last_run.txt`; it equals the expected start-of-run date only
when the save executes on the same calendar day the run started. -/
theorem claim2_watermark_save_time (cfg : Config) (env : Env)
    (h : (daily_download cfg env).savedWatermark ≠ none) :
    (daily_download cfg env).savedWatermark =
      some ("last_run.txt", Ymd.toDateStr env.saveDate ++ " 00:00:00") := by
  cases hf : env.files cfg.last_run with
  | none => simp [daily_download, hf] at h
  | some content =>
    cases hp : parseWatermark content with
    | none => simp [daily_download, hf, hp] at h
    | some w =>
      rw [daily_download_eq cfg env content w hf hp] at h ⊢
      rcases dailyRun_shape cfg env (getDates w (prevDay env.today)) with
        ⟨h1, _⟩ | ⟨_, h2⟩ | ⟨_, h3⟩
      · exact absurd h1 h
      · rw [h2] at h; simp at h
      · exact h3

/-- Claim C2 witness: when the save executes on the run's own date the saved
watermark is that date at midnight. -/
theorem claim2_witness :
    (daily_download cfg0 env1).savedWatermark ≠ none
    ∧ (daily_download cfg0 env1).savedWatermark =
        some ("last_run.txt", "2024-01-04 00:00:00") :=
  ⟨by decide, (claim2_watermark_save_time cfg0 env1 (by decide)).trans (by decide)⟩

/-- Claim C3 (code bug): with a non-default configured watermark path,
`daily_download` still writes the new watermark to the hard-coded path
`last_run.txt`, so the configured file keeps its old value and the next run
(which loads from the configured path) does not see the advanced watermark:
the save/load round trip fails. -/
theorem claim3_watermark_path_mismatch :
    cfg3.last_run = "watermark.txt"
    ∧ (daily_download cfg3 env3).outcome = .ok
    ∧ (daily_download cfg3 env3).savedWatermark = some ("last_run.txt", "2024-01-02 00:00:00")
    ∧ fsAfter files3 (daily_download cfg3 env3) "watermark.txt" = some "2024-01-01 00:00:00"
    ∧ fsAfter files3 (daily_download cfg3 env3) "last_run.txt" = some "2024-01-02 00:00:00" := by
  decide

/-- Claim C4 counterexample: a batch whose only job the listing reports with
status 3 but downloaded flag false, and for which no file was ever written,
makes the polling loop exit immediately with outcome ok: termination does not
require local persistence to have succeeded. -/
theorem claim4_cex :
    downloadAllRemaining "Data/" hist3 noArtifact 5 0 jobs4 = ⟨jobs4, [], 0, .ok⟩
    ∧ (∀ kj ∈ jobs4, kj.2.downloaded = some false) := by
  decide

/-- Claim C4 (amended): the polling loop terminates normally exactly when
every tracked status equals 3 (the listing-reported ready code): a normal
return implies all statuses are 3, and if all statuses are already 3 the loop
returns at once with no poll, no download, and no write -- regardless of the
downloaded flags or of any local persistence. -/
theorem claim4_loop_exit_condition (dp : String) (hist : Nat → List HistEntry)
    (art : String → Option String) (f k : Nat) (jobs : List (String × Job)) :
    ((downloadAllRemaining dp hist art f k jobs).outcome = .ok →
      ∀ kj ∈ (downloadAllRemaining dp hist art f k jobs).jobs, kj.2.status = 3)
    ∧ ((∀ kj ∈ jobs, kj.2.status = 3) →
      downloadAllRemaining dp hist art f k jobs = ⟨jobs, [], k, .ok⟩) :=
  ⟨loop_ok_status dp hist art f k jobs,
    fun h => loop_exit_now dp hist art f k jobs ((anyPendingJob_false_iff jobs).mpr h)⟩

/-- Claim C4 witness: on the concrete all-ready batch the loop exits at once. -/
theorem claim4_witness :
    (∀ kj ∈ jobs4, kj.2.status = 3)
    ∧ downloadAllRemaining "Data/" hist3 noArtifact 2 0 jobs4 = ⟨jobs4, [], 0, .ok⟩ :=
  ⟨by decide, (claim4_loop_exit_condition "Data/" hist3 noArtifact 2 0 jobs4).2 (by decide)⟩

/-- Claim C5 counterexample: a reconciliation pass alone sets the tracked
downloaded flag to true when the listing's downloaded flag is true, with no
download or persistence having occurred: the flag does not come only from the
Downloader's success signal. -/
theorem claim5_cex :
    updateJobStatus [⟨"a", "u", 3, true⟩] [("a", initJob)] = [("a", ⟨3, "u", some true⟩)]
    ∧ initJob.downloaded ≠ some true := by
  decide

/-- Claim C5 (amended): the tracked downloaded flag is a verbatim copy of the
external listing's downloaded flag taken from the first matching entry at
each reconciliation (and is unchanged when no entry matches); the download
pass itself never modifies the tracked job state. -/
theorem claim5_downloaded_from_listing (hist : List HistEntry) (jobs : List (String × Job)) :
    ∀ kp ∈ updateJobStatus hist jobs,
      (∃ e, hist.find? (fun e2 => e2.description == kp.1) = some e
        ∧ kp.2.downloaded = some e.downloaded)
      ∨ (kp ∈ jobs ∧ hist.find? (fun e2 => e2.description == kp.1) = none) := by
  intro kp hm
  rcases updateJobStatus_mem hist jobs kp hm with ⟨e, hfind, heq⟩ | h
  · exact Or.inl ⟨e, hfind, by rw [heq]⟩
  · exact Or.inr h

/-- Claim C5 witness: the characterization applied to the concrete
reconciliation of the counterexample. -/
theorem claim5_witness :
    ("a", (⟨3, "u", some true⟩ : Job)) ∈ updateJobStatus [⟨"a", "u", 3, true⟩] [("a", initJob)]
    ∧ ((∃ e, ([⟨"a", "u", 3, true⟩] : List HistEntry).find?
          (fun e2 => e2.description == ("a", (⟨3, "u", some true⟩ : Job)).1) = some e
        ∧ ("a", (⟨3, "u", some true⟩ : Job)).2.downloaded = some e.downloaded)
      ∨ (("a", (⟨3, "u", some true⟩ : Job)) ∈ [("a", initJob)]
        ∧ ([⟨"a", "u", 3, true⟩] : List HistEntry).find?
            (fun e2 => e2.description == ("a", (⟨3, "u", some true⟩ : Job)).1) = none)) :=
  ⟨by decide,
    claim5_downloaded_from_listing [⟨"a", "u", 3, true⟩] [("a", initJob)]
      ("a", ⟨3, "u", some true⟩) (by decide)⟩

/-- Claim C6 counterexample: a Ready job with listing downloaded flag false
is fetched, decoded and persisted (the parquet write happens), yet the
tracked job state still has downloaded = some false afterwards: the
Downloader does not mark the job Downloaded. -/
theorem claim6_cex :
    downloadAllRemaining "Data/" hist6 artifact6 2 0 [("j", initJob)]
      = ⟨[("j", ⟨3, "u", some false⟩)], [("Data/j.parquet", "BLOB")], 1, .ok⟩
    ∧ (∀ kj ∈ (downloadAllRemaining "Data/" hist6 artifact6 2 0 [("j", initJob)]).jobs,
        kj.2.downloaded ≠ some true) := by
  decide

/-- Claim C6 (amended): for every job that is Ready (status 3) with listing
downloaded flag false and fetchable artifact, the download pass fetches and
persists one parquet file at the path derived from the job's name, in batch
order, and succeeds -- but it returns only the writes and leaves the tracked
job state (in particular the downloaded flag) unchanged. -/
theorem claim6_download_writes_only (dp : String) (art : String → Option String)
    (jobs : List (String × Job))
    (h : ∀ kj ∈ jobs, kj.2.status = 3 ∧ kj.2.downloaded = some false →
      ∃ b, art kj.2.uuid = some b) :
    downloadJob dp art jobs =
      ((jobs.filter (fun kj => decide (kj.2.status = 3 ∧ kj.2.downloaded = some false))).map
        (fun kj => (dp ++ kj.1 ++ ".parquet", (art kj.2.uuid).getD "")), true) :=
  downloadJob_eq dp art jobs h

/-- Claim C6 witness: the download pass on the concrete Ready job writes the
expected parquet file. -/
theorem claim6_witness :
    downloadJob "Data/" artifact6 [("j", ⟨3, "u", some false⟩)]
      = ([("Data/j.parquet", "BLOB")], true) :=
  (claim6_download_writes_only "Data/" artifact6 [("j", ⟨3, "u", some false⟩)]
    (by
      intro kj hm _
      simp only [List.mem_singleton] at hm
      subst hm
      exact ⟨"BLOB", by decide⟩)).trans (by decide)

/-- Claim C7 counterexample: a job whose tracked state is status 3 with
downloaded flag true is moved back to status 1 with downloaded flag false by
a single reconciliation pass when the listing reports so: back-transitions do
occur, including out of the Downloaded state. -/
theorem claim7_cex :
    updateJobStatus [⟨"a", "u2", 1, false⟩] [("a", ⟨3, "u", some true⟩)]
      = [("a", ⟨1, "u2", some false⟩)] := by
  decide

/-- Claim C7 (amended): reconciliation copies the listing's reported status
verbatim, so tracked statuses never move backwards only under the assumption
that every matching listing entry reports a status at least as large as the
tracked one; under that assumption the pass is pointwise monotone and
key-preserving. -/
theorem claim7_status_monotone_under_listing (hist : List HistEntry)
    (jobs : List (String × Job))
    (h : ∀ kj ∈ jobs, ∀ e, hist.find? (fun e2 => e2.description == kj.1) = some e →
      kj.2.status ≤ e.status) :
    List.Forall₂ (fun kj kj2 : String × Job => kj.1 = kj2.1 ∧ kj.2.status ≤ kj2.2.status)
      jobs (updateJobStatus hist jobs) :=
  updateJobStatus_status_mono hist jobs h

/-- Claim C7 witness: a concrete monotone reconciliation. -/
theorem claim7_witness :
    List.Forall₂ (fun kj kj2 : String × Job => kj.1 = kj2.1 ∧ kj.2.status ≤ kj2.2.status)
      [("a", ⟨1, "u", some false⟩)]
      (updateJobStatus [⟨"a", "u", 3, false⟩] [("a", ⟨1, "u", some false⟩)]) :=
  claim7_status_monotone_under_listing [⟨"a", "u", 3, false⟩] [("a", ⟨1, "u", some false⟩)]
    (by
      intro kj hm e he
      simp only [List.mem_singleton] at hm
      subst hm
      have hmem := List.mem_of_find?_eq_some he
      simp only [List.mem_singleton] at hmem
      subst hmem
      decide)

/-- Claim C8 counterexample: when the fetch of the only Ready job fails, the
exception propagates and the run aborts (outcome exn) instead of leaving the
job Ready to be retried on a next polling cycle; the watermark is not
written. -/
theorem claim8_cex :
    (daily_download cfg0 env8).outcome = .exn
    ∧ (daily_download cfg0 env8).savedWatermark = none
    ∧ (daily_download cfg0 env8).writes = []
    ∧ (∀ kj ∈ (daily_download cfg0 env8).jobs, kj.2.downloaded = some false) := by
  decide

/-- Claim C8 (amended): a fetch/decode failure raises and aborts the whole
run rather than being retried; on any `daily_download` run that does not
return normally, the watermark file is not written. -/
theorem claim8_no_watermark_on_error (cfg : Config) (env : Env)
    (h : (daily_download cfg env).outcome ≠ .ok) :
    (daily_download cfg env).savedWatermark = none := by
  cases hf : env.files cfg.last_run with
  | none => simp [daily_download, hf]
  | some content =>
    cases hp : parseWatermark content with
    | none => simp [daily_download, hf, hp]
    | some w =>
      rw [daily_download_eq cfg env content w hf hp] at h ⊢
      rcases dailyRun_shape cfg env (getDates w (prevDay env.today)) with
        ⟨h1, _⟩ | ⟨_, h2⟩ | ⟨h3, _⟩
      · exact h1
      · rw [h2]
      · exact absurd h3 h

/-- Claim C8 witness: the failed concrete run saved no watermark. -/
theorem claim8_witness :
    (daily_download cfg0 env8).outcome ≠ .ok
    ∧ (daily_download cfg0 env8).savedWatermark = none :=
  ⟨by decide, claim8_no_watermark_on_error cfg0 env8 (by decide)⟩

/-- Claim C9: `single_download` submits exactly one job for the caller's
range and neither reads nor writes the watermark file: it performs no
watermark write, every file it writes is a parquet file under the download
path, and as long as the configured watermark path is not itself one of
those parquet paths its contents are identical before and after the call. -/
theorem claim9_single_no_watermark (cfg : Config) (env : Env) (sd ed n0 : String) :
    (single_download cfg env sd ed n0).submitted = [⟨sanitize n0, sd, ed⟩]
    ∧ (single_download cfg env sd ed n0).savedWatermark = none
    ∧ (∀ p c, (p, c) ∈ (single_download cfg env sd ed n0).writes →
        ∃ s2, p = cfg.download_path ++ s2 ++ ".parquet")
    ∧ ((∀ s2, cfg.last_run ≠ cfg.download_path ++ s2 ++ ".parquet") →
        fsAfter env.files (single_download cfg env sd ed n0) cfg.last_run
          = env.files cfg.last_run) := by
  refine ⟨rfl, rfl, ?_, ?_⟩
  · intro p c h
    obtain ⟨s2, _, hp⟩ := loop_writes cfg.download_path env.histories env.artifact env.fuel 0
      [(sanitize n0, initJob)] p c h
    exact ⟨s2, hp⟩
  · intro hno
    show applyWrites env.files (single_download cfg env sd ed n0).writes cfg.last_run
      = env.files cfg.last_run
    apply applyWrites_eq_of_not_mem
    intro pc hm hq
    obtain ⟨p, c⟩ := pc
    obtain ⟨s2, _, hp⟩ := loop_writes cfg.download_path env.histories env.artifact env.fuel 0
      [(sanitize n0, initJob)] p c hm
    exact hno s2 (hq ▸ hp)

/-- Claim C9 witness: for the default configuration the watermark file's
contents are unchanged by a concrete `single_download` call. -/
theorem claim9_witness :
    (single_download cfg0 env9 "2024-01-01" "2024-01-02" "x").submitted
      = [⟨sanitize "x", "2024-01-01", "2024-01-02"⟩]
    ∧ fsAfter env9.files (single_download cfg0 env9 "2024-01-01" "2024-01-02" "x") cfg0.last_run
      = env9.files cfg0.last_run := by
  have hno : ∀ s2 : String, cfg0.last_run ≠ cfg0.download_path ++ s2 ++ ".parquet" := by
    intro s2 hq
    have hlen := congrArg String.length hq
    rw [String.length_append, String.length_append] at hlen
    have h1 : (cfg0.last_run).length = 12 := rfl
    have h2 : (cfg0.download_path).length = 5 := rfl
    have h3 : (".parquet" : String).length = 8 := rfl
    omega
  have h := claim9_single_no_watermark cfg0 env9 "2024-01-01" "2024-01-02" "x"
  exact ⟨h.1, h.2.2.2 hno⟩

/-- Claim C10: `single_download` sanitizes the caller-supplied job name
(spaces to underscores, colons removed) before any use: the sanitized string
is what is submitted, what keys the tracked job map matched against the
listing, and what derives every output file path; a name with no spaces or
colons is used unchanged. -/
theorem claim10_sanitize (cfg : Config) (env : Env) (sd ed n0 : String) :
    (single_download cfg env sd ed n0).submitted = [⟨sanitize n0, sd, ed⟩]
    ∧ (∀ p c, (p, c) ∈ (single_download cfg env sd ed n0).writes →
        p = cfg.download_path ++ sanitize n0 ++ ".parquet")
    ∧ (∀ kj ∈ (single_download cfg env sd ed n0).jobs, kj.1 = sanitize n0)
    ∧ (sanitize n0).data
        = (n0.data.map (fun c => if c = ' ' then '_' else c)).filter (fun c => c != ':')
    ∧ ((∀ c ∈ n0.data, c ≠ ' ' ∧ c ≠ ':') → sanitize n0 = n0) := by
  refine ⟨rfl, ?_, ?_, rfl, sanitize_eq_self n0⟩
  · intro p c h
    obtain ⟨s2, hm, hp⟩ := loop_writes cfg.download_path env.histories env.artifact env.fuel 0
      [(sanitize n0, initJob)] p c h
    simp only [List.map_cons, List.map_nil, List.mem_singleton] at hm
    rw [hp, hm]
  · intro kj hm
    have h2 : kj.1 ∈ ((downloadAllRemaining cfg.download_path env.histories env.artifact
        env.fuel 0 [(sanitize n0, initJob)]).jobs.map Prod.fst) :=
      List.mem_map_of_mem Prod.fst hm
    rw [loop_keys cfg.download_path env.histories env.artifact env.fuel 0
      [(sanitize n0, initJob)]] at h2
    simpa using h2

/-- Claim C10 witness: a name with a space and a colon is sanitized before
submission; a plain name passes through unchanged. -/
theorem claim10_witness :
    (single_download cfg0 env9 "2024-01-01" "2024-01-02" "my job:1").submitted
      = [⟨"my_job1", "2024-01-01", "2024-01-02"⟩]
    ∧ sanitize "plain" = "plain" :=
  ⟨((claim10_sanitize cfg0 env9 "2024-01-01" "2024-01-02" "my job:1").1).trans (by decide),
    (claim10_sanitize cfg0 env9 "2024-01-01" "2024-01-02" "plain").2.2.2.2 (by decide)⟩

end RITIS
